import Mathlib

/-!
Shallow embedding of `spring/task3/preprocessing.py`: corpus extraction,
vocabulary construction and sentence tokenization for a word-alignment
pipeline.  Python strings are modelled as `List Char`, Python dicts as
insertion-ordered association lists, and Python exceptions as `Except PyErr`.
-/

set_option maxHeartbeats 1000000

namespace Align

/-- A Python string (raw text as well as a single token). -/
abbrev Token := List Char

/-- The Python exceptions the modelled code can raise. -/
inductive PyErr where
  | attributeError
  | indexError
  | valueError
  deriving DecidableEq, Repr

/-- The `SentencePair` dataclass: token lists for source and target sentence. -/
structure SentencePair where
  source : List Token
  target : List Token
  deriving DecidableEq, Repr

/-- The `TokenizedSentencePair` dataclass: vocabulary-index lists for both sides. -/
structure TokenizedSentencePair where
  source_tokens : List Nat
  target_tokens : List Nat
  deriving DecidableEq, Repr

/-- The `LabeledAlignment` dataclass: sure and possible alignment position pairs. -/
structure LabeledAlignment where
  sure : List (Int × Int)
  possible : List (Int × Int)
  deriving DecidableEq, Repr

/-- An element of the parsed markup tree; only its text content matters here
(Python `None` text is `none`). -/
structure XElement where
  text : Option (List Char)
  deriving DecidableEq, Repr

/-- Helper for Python `str.split()`: `cur` is the current word, reversed. -/
def splitWsAux (cur : List Char) : List Char → List (List Char)
  | [] => if cur = [] then [] else [cur.reverse]
  | c :: cs =>
    if c.isWhitespace then
      if cur = [] then splitWsAux [] cs else cur.reverse :: splitWsAux [] cs
    else splitWsAux (c :: cur) cs

/-- Python `str.split()` with no argument: split on whitespace runs, dropping
empty words. -/
def pySplitWs (s : List Char) : List (List Char) := splitWsAux [] s

/-- Python `str.split(sep)` for a one-character separator: split at every
occurrence, keeping empty components. -/
def pySplitOn (sep : Char) : List Char → List (List Char)
  | [] => [[]]
  | c :: cs =>
    if c = sep then [] :: pySplitOn sep cs
    else
      match pySplitOn sep cs with
      | [] => [[c]]
      | g :: gs => (c :: g) :: gs

/-- Digit accumulator for the model of Python `int()`. -/
def parseDigits (acc : Nat) : List Char → Option Nat
  | [] => some acc
  | c :: cs => if c.isDigit then parseDigits (acc * 10 + (c.toNat - 48)) cs else none

/-- A nonempty all-digit string, as a natural number. -/
def parseNat? : List Char → Option Nat
  | [] => none
  | c :: cs => parseDigits 0 (c :: cs)

/-- Python `int(str)` restricted to an optional sign followed by decimal
digits (surrounding whitespace and digit-group underscores are not modelled;
no claim depends on them). -/
def pyInt? : List Char → Option Int
  | [] => none
  | c :: cs =>
    if c = '-' then (parseNat? cs).map (fun n => -(n : Int))
    else if c = '+' then (parseNat? cs).map (fun n => (n : Int))
    else (parseNat? (c :: cs)).map (fun n => (n : Int))

/-- A partial Python operation: its failure raises the exception `e`. -/
def liftOpt {α : Type} (e : PyErr) : Option α → Except PyErr α
  | some a => Except.ok a
  | none => Except.error e

/-- `token[i]` on a child element: `IndexError` when out of range. -/
def getItem? (child : List XElement) (i : Nat) : Except PyErr XElement :=
  liftOpt PyErr.indexError child[i]?

/-- `e.text.split()`: `AttributeError` when the text is `None`. -/
def textSplit (e : XElement) : Except PyErr (List (List Char)) :=
  match e.text with
  | some s => Except.ok (pySplitWs s)
  | none => Except.error PyErr.attributeError

/-- `(int(s.split('-')[0]), int(s.split('-')[1]))` in Python's evaluation
order: indexing raises `IndexError`, `int()` raises `ValueError`. -/
def parseAlignTok (s : List Char) : Except PyErr (Int × Int) :=
  Except.bind (liftOpt PyErr.indexError (pySplitOn '-' s)[0]?) (fun p0 =>
  Except.bind (liftOpt PyErr.valueError (pyInt? p0)) (fun a =>
  Except.bind (liftOpt PyErr.indexError (pySplitOn '-' s)[1]?) (fun p1 =>
  Except.bind (liftOpt PyErr.valueError (pyInt? p1)) (fun b =>
  Except.ok (a, b)))))

/-- The alignment list comprehension, over the whitespace-split text. -/
def parseAlignToks : List (List Char) → Except PyErr (List (Int × Int))
  | [] => Except.ok []
  | s :: rest =>
    match parseAlignTok s with
    | Except.error e => Except.error e
    | Except.ok pr =>
      match parseAlignToks rest with
      | Except.error e => Except.error e
      | Except.ok l => Except.ok (pr :: l)

/-- `sure`/`possible` parsing guarded by `text is not None`. -/
def parseAlignList (t : Option (List Char)) : Except PyErr (List (Int × Int)) :=
  match t with
  | none => Except.ok []
  | some s => parseAlignToks (pySplitWs s)

/-- The body of the `extract_sentences` loop, for one child element of the
document root, with Python's statement order: split both texts, then parse
the two alignment fields; the first exception aborts the whole call. -/
def processChild (child : List XElement) : Except PyErr (SentencePair × LabeledAlignment) :=
  Except.bind (getItem? child 0) (fun e0 =>
  Except.bind (textSplit e0) (fun src =>
  Except.bind (getItem? child 1) (fun e1 =>
  Except.bind (textSplit e1) (fun tgt =>
  Except.bind (getItem? child 2) (fun e2 =>
  Except.bind (parseAlignList e2.text) (fun sure =>
  Except.bind (getItem? child 3) (fun e3 =>
  Except.bind (parseAlignList e3.text) (fun possible =>
  Except.ok (⟨src, tgt⟩, ⟨sure, possible⟩)))))))))

/-- The extraction loop of `extract_sentences`, over the already-parsed
children of the document root (the file round-trip and the markup parser are
library code; the parser's ampersand handling is modelled separately below). -/
def extract_sentences : List (List XElement) → Except PyErr (List SentencePair × List LabeledAlignment)
  | [] => Except.ok ([], [])
  | child :: rest =>
    match processChild child with
    | Except.error e => Except.error e
    | Except.ok pa =>
      match extract_sentences rest with
      | Except.error e => Except.error e
      | Except.ok (ps, als) => Except.ok (pa.1 :: ps, pa.2 :: als)

/-- `s.replace('&', '&amp;')` from `extract_sentences`. -/
def escapeAmp : List Char → List Char
  | [] => []
  | c :: cs =>
    if c = '&' then '&' :: 'a' :: 'm' :: 'p' :: ';' :: escapeAmp cs
    else c :: escapeAmp cs

/-- Model of the markup parser's character-data handling (library
`xml.etree.ElementTree`, outside this repository), restricted to the
ampersand entity, the only one these inputs involve: `&amp;` decodes to a
literal ampersand, and a bare ampersand not opening that entity is a parse
error. -/
def decodeAmp : List Char → Option (List Char)
  | [] => some []
  | c :: rest =>
    if c = '&' then
      match rest with
      | a :: m :: p :: sc :: rest2 =>
        if a = 'a' ∧ m = 'm' ∧ p = 'p' ∧ sc = ';' then
          (decodeAmp rest2).map (fun t => '&' :: t)
        else none
      | _ => none
    else (decodeAmp rest).map (fun t => c :: t)

/-- One step of the counting loop:
`if token in vocab: vocab[token] += 1 else: vocab[token] = 1`.
A Python dict is modelled as an insertion-ordered association list: updating
an existing key keeps its position, a new key is appended at the end. -/
def bumpToken (v : List (Token × Nat)) (t : Token) : List (Token × Nat) :=
  if t ∈ v.map Prod.fst then
    v.map (fun p => if p.1 = t then (p.1, p.2 + 1) else p)
  else v ++ [(t, 1)]

/-- Count the tokens of one sentence, left to right. -/
def countList (v : List (Token × Nat)) : List Token → List (Token × Nat)
  | [] => v
  | t :: ts => countList (bumpToken v t) ts

/-- Count one side of the whole corpus, sentence by sentence.  The two sides
use disjoint dicts, so each side of the Python loop is this independent fold. -/
def countCorpus (side : SentencePair → List Token) (v : List (Token × Nat)) :
    List SentencePair → List (Token × Nat)
  | [] => v
  | p :: rest => countCorpus side (countList v (side p)) rest

/-- The `source_vocab` counting dict. -/
def sourceCounts (ps : List SentencePair) : List (Token × Nat) :=
  countCorpus SentencePair.source [] ps

/-- The `target_vocab` counting dict. -/
def targetCounts (ps : List SentencePair) : List (Token × Nat) :=
  countCorpus SentencePair.target [] ps

/-- Insert an entry into a descending-by-count list, right before the first
entry whose count is not larger: the position a stable descending sort gives
an element relative to the already sorted later entries. -/
def insertDesc (x : Token × Nat) : List (Token × Nat) → List (Token × Nat)
  | [] => [x]
  | y :: ys => if y.2 ≤ x.2 then x :: y :: ys else y :: insertDesc x ys

/-- `sorted(vocab.items(), key=lambda item: item[1], reverse=True)`:
a stable descending sort by count (sortedness, stability and the permutation
property are proved below; these three characterize Python's `sorted`). -/
def sortDesc : List (Token × Nat) → List (Token × Nat)
  | [] => []
  | x :: xs => insertDesc x (sortDesc xs)

/-- `enumerate` starting at `i`, packaged as `(token, index)` pairs exactly
as the comprehension `{token: it for it, token in enumerate(keys)}` builds
them (the enumerated keys are pairwise distinct dict keys, so the resulting
dict is this association list). -/
def enumTokens (i : Nat) : List Token → List (Token × Nat)
  | [] => []
  | t :: ts => (t, i) :: enumTokens (i + 1) ts

/-- Re-index a key list from zero. -/
def vocabFromKeys (keys : List Token) : List (Token × Nat) := enumTokens 0 keys

/-- Sorting, the `freq_cutoff` slice (`[:freq_cutoff]`) and re-indexing for
one language side of `get_token_to_index`. -/
def buildVocab (cutoff : Option Nat) (cnts : List (Token × Nat)) : List (Token × Nat) :=
  match cutoff with
  | some k => vocabFromKeys (((sortDesc cnts).map Prod.fst).take k)
  | none => vocabFromKeys ((sortDesc cnts).map Prod.fst)

/-- `get_token_to_index` (its `freq_cutoff` is `None` or a natural number,
per the docstring). -/
def get_token_to_index (ps : List SentencePair) (freq_cutoff : Option Nat) :
    List (Token × Nat) × List (Token × Nat) :=
  (buildVocab freq_cutoff (sourceCounts ps), buildVocab freq_cutoff (targetCounts ps))

/-- `token in d.keys()` / `d[token]` on the association-list dict model. -/
def dictLookup (d : List (Token × Nat)) (t : Token) : Option Nat :=
  match d with
  | [] => none
  | kv :: rest => if t = kv.1 then some kv.2 else dictLookup rest t

/-- The per-side loop of `tokenize_sents`: append the index of an
in-vocabulary token, reset the accumulator to `[]` at an unknown one. -/
def tokenizeSideAux (d : List (Token × Nat)) (acc : List Nat) : List Token → List Nat
  | [] => acc
  | t :: ts =>
    match dictLookup d t with
    | some i => tokenizeSideAux d (acc ++ [i]) ts
    | none => tokenizeSideAux d [] ts

/-- One side of a sentence pair, tokenized. -/
def tokenizeSide (d : List (Token × Nat)) (toks : List Token) : List Nat :=
  tokenizeSideAux d [] toks

/-- `tokenize_sents`: keep a pair only when both index lists are nonempty
(`if len(target_ints) and len(source_ints)`). -/
def tokenize_sents (ps : List SentencePair) (source_dict target_dict : List (Token × Nat)) :
    List TokenizedSentencePair :=
  match ps with
  | [] => []
  | p :: rest =>
    let src := tokenizeSide source_dict p.source
    let tgt := tokenizeSide target_dict p.target
    if tgt ≠ [] ∧ src ≠ [] then
      ⟨src, tgt⟩ :: tokenize_sents rest source_dict target_dict
    else tokenize_sents rest source_dict target_dict

/-- Stated from the specification's wording, for comparison with the code:
the index-mapped suffix of tokens strictly following the last
out-of-vocabulary token, i.e. the longest in-vocabulary suffix — all tokens
when every one of them is in the vocabulary. -/
def specSuffixAfterLastOOV (d : List (Token × Nat)) (toks : List Token) : List Token :=
  (toks.reverse.takeWhile (fun t => (dictLookup d t).isSome)).reverse

/-- First occurrences of a token stream, in scan order, skipping the tokens
seen already. -/
def firstSeenAux (seen : List Token) : List Token → List Token
  | [] => []
  | t :: ts => if t ∈ seen then firstSeenAux seen ts else t :: firstSeenAux (t :: seen) ts

/-- The key list of a dict model. -/
def vocabKeys (v : List (Token × Nat)) : List Token := v.map Prod.fst

/-- The counted frequency of a token (0 when absent). -/
def countOf (cnts : List (Token × Nat)) (t : Token) : Nat := (dictLookup cnts t).getD 0

/-! ### Association-list dict lemmas -/

theorem dictLookup_eq_none_iff (d : List (Token × Nat)) (t : Token) :
    dictLookup d t = none ↔ t ∉ vocabKeys d := by
  induction d with
  | nil => simp [dictLookup, vocabKeys]
  | cons kv rest ih =>
    by_cases h : t = kv.1
    · simp [dictLookup, vocabKeys, h]
    · simp [dictLookup, vocabKeys, h, ih]

theorem mem_of_dictLookup_eq_some {d : List (Token × Nat)} {t : Token} {n : Nat}
    (h : dictLookup d t = some n) : (t, n) ∈ d := by
  induction d with
  | nil => simp [dictLookup] at h
  | cons kv rest ih =>
    by_cases ht : t = kv.1
    · simp [dictLookup, ht] at h
      subst ht
      simp [← h]
    · simp [dictLookup, ht] at h
      exact List.mem_cons_of_mem _ (ih h)

theorem dictLookup_eq_some_of_mem {d : List (Token × Nat)} {t : Token} {n : Nat}
    (hnd : (vocabKeys d).Nodup) (h : (t, n) ∈ d) : dictLookup d t = some n := by
  induction d with
  | nil => simp at h
  | cons kv rest ih =>
    simp only [vocabKeys, List.map_cons, List.nodup_cons] at hnd
    rcases List.mem_cons.mp h with h1 | h1
    · subst h1
      simp [dictLookup]
    · have ht : t ≠ kv.1 := by
        intro he
        exact hnd.1 (he ▸ (List.mem_map.mpr ⟨(t, n), h1, rfl⟩))
      simp [dictLookup, ht]
      exact ih hnd.2 h1

theorem countOf_entry {cnts : List (Token × Nat)} {e : Token × Nat}
    (hnd : (vocabKeys cnts).Nodup) (h : e ∈ cnts) : countOf cnts e.1 = e.2 := by
  have := dictLookup_eq_some_of_mem hnd (show (e.1, e.2) ∈ cnts by simpa using h)
  simp [countOf, this]

/-! ### Counting lemmas -/

theorem bumpToken_keys (v : List (Token × Nat)) (t : Token) :
    vocabKeys (bumpToken v t) =
      if t ∈ vocabKeys v then vocabKeys v else vocabKeys v ++ [t] := by
  by_cases h : t ∈ v.map Prod.fst
  · have : vocabKeys (v.map (fun p => if p.1 = t then (p.1, p.2 + 1) else p)) = vocabKeys v := by
      simp only [vocabKeys, List.map_map]
      apply List.map_congr_left
      intro p _
      by_cases hp : p.1 = t <;> simp [hp]
    simp [bumpToken, vocabKeys, h] at this ⊢
    simpa [h] using this
  · simp [bumpToken, vocabKeys, h]

theorem firstSeenAux_congr {s1 s2 : List Token} (ts : List Token)
    (h : ∀ x, x ∈ s1 ↔ x ∈ s2) : firstSeenAux s1 ts = firstSeenAux s2 ts := by
  induction ts generalizing s1 s2 with
  | nil => simp [firstSeenAux]
  | cons t ts ih =>
    by_cases ht : t ∈ s1
    · simp [firstSeenAux, ht, (h t).mp ht, ih h]
    · have ht2 : t ∉ s2 := fun hx => ht ((h t).mpr hx)
      simp only [firstSeenAux, if_neg ht, if_neg ht2]
      refine congrArg _ (ih ?_)
      intro x
      simp [h x]

theorem countList_keys (v : List (Token × Nat)) (ts : List Token) :
    vocabKeys (countList v ts) = vocabKeys v ++ firstSeenAux (vocabKeys v) ts := by
  induction ts generalizing v with
  | nil => simp [countList, firstSeenAux]
  | cons t ts ih =>
    by_cases h : t ∈ vocabKeys v
    · rw [countList, ih, bumpToken_keys, if_pos h]
      simp [firstSeenAux, h]
    · rw [countList, ih, bumpToken_keys, if_neg h]
      rw [firstSeenAux, if_neg h]
      have hcongr : firstSeenAux (vocabKeys v ++ [t]) ts = firstSeenAux (t :: vocabKeys v) ts :=
        firstSeenAux_congr ts (by intro x; simp; tauto)
      rw [hcongr]
      simp

theorem mem_firstSeenAux {seen ts : List Token} {x : Token} :
    x ∈ firstSeenAux seen ts ↔ x ∉ seen ∧ x ∈ ts := by
  induction ts generalizing seen with
  | nil => simp [firstSeenAux]
  | cons t ts ih =>
    by_cases ht : t ∈ seen
    · rw [firstSeenAux, if_pos ht, ih]
      constructor
      · rintro ⟨h1, h2⟩; exact ⟨h1, List.mem_cons_of_mem _ h2⟩
      · rintro ⟨h1, h2⟩
        rcases List.mem_cons.mp h2 with h2 | h2
        · exact absurd (h2 ▸ ht) h1
        · exact ⟨h1, h2⟩
    · rw [firstSeenAux, if_neg ht]
      constructor
      · intro h
        rcases List.mem_cons.mp h with h | h
        · exact ⟨h ▸ ht, h ▸ List.mem_cons_self _ _⟩
        · have := ih.mp h
          simp at this
          exact ⟨this.1.2, List.mem_cons_of_mem _ this.2⟩
      · rintro ⟨h1, h2⟩
        rcases List.mem_cons.mp h2 with h2 | h2
        · exact h2 ▸ List.mem_cons_self _ _
        · by_cases hx : x = t
          · exact hx ▸ List.mem_cons_self _ _
          · exact List.mem_cons_of_mem _ (ih.mpr ⟨by simp [hx, h1], h2⟩)

theorem firstSeenAux_nodup (seen ts : List Token) : (firstSeenAux seen ts).Nodup := by
  induction ts generalizing seen with
  | nil => simp [firstSeenAux]
  | cons t ts ih =>
    by_cases ht : t ∈ seen
    · rw [firstSeenAux, if_pos ht]; exact ih seen
    · rw [firstSeenAux, if_neg ht]
      refine List.nodup_cons.mpr ⟨?_, ih (t :: seen)⟩
      intro hmem
      exact (mem_firstSeenAux.mp hmem).1 (List.mem_cons_self _ _)

theorem countList_keys_nodup {v : List (Token × Nat)} (ts : List Token)
    (h : (vocabKeys v).Nodup) : (vocabKeys (countList v ts)).Nodup := by
  rw [countList_keys]
  refine List.Nodup.append h (firstSeenAux_nodup _ _) ?_
  intro x hx hx2
  exact (mem_firstSeenAux.mp hx2).1 hx

theorem countList_append (v : List (Token × Nat)) (a b : List Token) :
    countList v (a ++ b) = countList (countList v a) b := by
  induction a generalizing v with
  | nil => simp [countList]
  | cons t ts ih => simp [countList, ih]

theorem countCorpus_eq_countList (side : SentencePair → List Token)
    (v : List (Token × Nat)) (ps : List SentencePair) :
    countCorpus side v ps = countList v ((ps.map side).flatten) := by
  induction ps generalizing v with
  | nil => simp [countCorpus, countList]
  | cons p rest ih => simp [countCorpus, ih, countList_append]

theorem sourceCounts_keys (ps : List SentencePair) :
    vocabKeys (sourceCounts ps) = firstSeenAux [] ((ps.map SentencePair.source).flatten) := by
  rw [sourceCounts, countCorpus_eq_countList, countList_keys]
  simp [vocabKeys]

theorem targetCounts_keys (ps : List SentencePair) :
    vocabKeys (targetCounts ps) = firstSeenAux [] ((ps.map SentencePair.target).flatten) := by
  rw [targetCounts, countCorpus_eq_countList, countList_keys]
  simp [vocabKeys]

theorem sourceCounts_keys_nodup (ps : List SentencePair) :
    (vocabKeys (sourceCounts ps)).Nodup := by
  rw [sourceCounts_keys]; exact firstSeenAux_nodup _ _

theorem targetCounts_keys_nodup (ps : List SentencePair) :
    (vocabKeys (targetCounts ps)).Nodup := by
  rw [targetCounts_keys]; exact firstSeenAux_nodup _ _

theorem mem_sourceCounts_keys (ps : List SentencePair) (t : Token) :
    t ∈ vocabKeys (sourceCounts ps) ↔ ∃ p ∈ ps, t ∈ p.source := by
  rw [sourceCounts_keys, mem_firstSeenAux]
  simp [List.mem_flatten]

theorem mem_targetCounts_keys (ps : List SentencePair) (t : Token) :
    t ∈ vocabKeys (targetCounts ps) ↔ ∃ p ∈ ps, t ∈ p.target := by
  rw [targetCounts_keys, mem_firstSeenAux]
  simp [List.mem_flatten]

/-! ### Stable descending sort lemmas -/

theorem insertDesc_perm (x : Token × Nat) (l : List (Token × Nat)) :
    List.Perm (insertDesc x l) (x :: l) := by
  induction l with
  | nil => exact List.Perm.refl _
  | cons y ys ih =>
    by_cases h : y.2 ≤ x.2
    · rw [insertDesc, if_pos h]
    · rw [insertDesc, if_neg h]
      exact List.Perm.trans (List.Perm.cons y ih) (List.Perm.swap x y ys)

theorem sortDesc_perm (l : List (Token × Nat)) : List.Perm (sortDesc l) l := by
  induction l with
  | nil => exact List.Perm.refl _
  | cons x xs ih =>
    exact List.Perm.trans (insertDesc_perm x (sortDesc xs)) (List.Perm.cons x ih)

theorem insertDesc_pairwise {x : Token × Nat} {l : List (Token × Nat)}
    (h : l.Pairwise (fun a b => b.2 ≤ a.2)) :
    (insertDesc x l).Pairwise (fun a b => b.2 ≤ a.2) := by
  induction l with
  | nil => simp [insertDesc]
  | cons y ys ih =>
    rcases List.pairwise_cons.mp h with ⟨hy, hys⟩
    by_cases hle : y.2 ≤ x.2
    · rw [insertDesc, if_pos hle]
      refine List.pairwise_cons.mpr ⟨?_, h⟩
      intro z hz
      rcases List.mem_cons.mp hz with hz | hz
      · exact hz ▸ hle
      · exact le_trans (hy z hz) hle
    · rw [insertDesc, if_neg hle]
      refine List.pairwise_cons.mpr ⟨?_, ih hys⟩
      intro z hz
      have : z ∈ x :: ys := (insertDesc_perm x ys).mem_iff.mp hz
      rcases List.mem_cons.mp this with hz2 | hz2
      · exact hz2 ▸ le_of_lt (Nat.lt_of_not_le hle)
      · exact hy z hz2

theorem sortDesc_pairwise (l : List (Token × Nat)) :
    (sortDesc l).Pairwise (fun a b => b.2 ≤ a.2) := by
  induction l with
  | nil => simp [sortDesc]
  | cons x xs ih => exact insertDesc_pairwise ih

theorem insertDesc_filter (x : Token × Nat) (l : List (Token × Nat)) (c : Nat) :
    (insertDesc x l).filter (fun p => p.2 == c) =
      if x.2 = c then x :: l.filter (fun p => p.2 == c)
      else l.filter (fun p => p.2 == c) := by
  induction l with
  | nil =>
    rw [insertDesc]
    by_cases hx : x.2 = c <;> simp [List.filter_cons, hx]
  | cons y ys ih =>
    by_cases hle : y.2 ≤ x.2
    · rw [insertDesc, if_pos hle]
      by_cases hx : x.2 = c
      · by_cases hy : y.2 = c <;> simp [List.filter_cons, hx, hy]
      · by_cases hy : y.2 = c <;> simp [List.filter_cons, hx, hy]
    · rw [insertDesc, if_neg hle]
      have hlt : x.2 < y.2 := Nat.lt_of_not_le hle
      by_cases hx : x.2 = c
      · have hy : ¬ (y.2 = c) := by omega
        simp [List.filter_cons, hy, ih, hx]
      · by_cases hy : y.2 = c <;> simp [List.filter_cons, hy, ih, hx]

theorem sortDesc_filter (l : List (Token × Nat)) (c : Nat) :
    (sortDesc l).filter (fun p => p.2 == c) = l.filter (fun p => p.2 == c) := by
  induction l with
  | nil => simp [sortDesc]
  | cons x xs ih =>
    rw [sortDesc, insertDesc_filter]
    by_cases hx : x.2 = c <;> simp [List.filter_cons, hx, ih]

/-! ### Enumeration lemmas -/

theorem enumTokens_map_fst (i : Nat) (ks : List Token) :
    vocabKeys (enumTokens i ks) = ks := by
  induction ks generalizing i with
  | nil => simp [enumTokens, vocabKeys]
  | cons t ts ih => simp [enumTokens, vocabKeys] at ih ⊢; exact ih (i + 1)

theorem enumTokens_map_snd (i : Nat) (ks : List Token) :
    (enumTokens i ks).map Prod.snd = List.range' i ks.length := by
  induction ks generalizing i with
  | nil => simp [enumTokens]
  | cons t ts ih => simp [enumTokens, List.range', ih]

theorem enumTokens_length (i : Nat) (ks : List Token) :
    (enumTokens i ks).length = ks.length := by
  induction ks generalizing i with
  | nil => simp [enumTokens]
  | cons t ts ih => simp [enumTokens, ih]

theorem enumTokens_getElem? (i : Nat) (ks : List Token) (j : Nat) :
    (enumTokens i ks)[j]? = ks[j]?.map (fun t => (t, i + j)) := by
  induction ks generalizing i j with
  | nil => simp [enumTokens]
  | cons t ts ih =>
    cases j with
    | zero => simp [enumTokens]
    | succ j =>
      simp only [enumTokens, List.getElem?_cons_succ, ih]
      cases ts[j]? <;> simp [Nat.add_assoc, Nat.add_comm 1 j]

theorem vocabFromKeys_keys (ks : List Token) : vocabKeys (vocabFromKeys ks) = ks :=
  enumTokens_map_fst 0 ks

theorem vocabFromKeys_indices (ks : List Token) :
    (vocabFromKeys ks).map Prod.snd = List.range ks.length := by
  rw [vocabFromKeys, enumTokens_map_snd, List.range_eq_range']

theorem vocabFromKeys_length (ks : List Token) : (vocabFromKeys ks).length = ks.length :=
  enumTokens_length 0 ks

theorem vocabFromKeys_getElem? (ks : List Token) (j : Nat) :
    (vocabFromKeys ks)[j]? = ks[j]?.map (fun t => (t, j)) := by
  rw [vocabFromKeys, enumTokens_getElem?]
  simp

theorem vocabFromKeys_getElem (ks : List Token) (i : Nat)
    (hi : i < (vocabFromKeys ks).length) (hk : i < ks.length) :
    (vocabFromKeys ks)[i] = (ks[i], i) := by
  have h1 := vocabFromKeys_getElem? ks i
  rw [List.getElem?_eq_getElem hi, List.getElem?_eq_getElem hk] at h1
  simpa using h1

/-! ### Vocabulary-construction lemmas -/

theorem buildVocab_keys_some (k : Nat) (cnts : List (Token × Nat)) :
    vocabKeys (buildVocab (some k) cnts) = ((sortDesc cnts).map Prod.fst).take k := by
  simp [buildVocab, vocabFromKeys_keys]

theorem buildVocab_keys_none (cnts : List (Token × Nat)) :
    vocabKeys (buildVocab none cnts) = (sortDesc cnts).map Prod.fst := by
  simp [buildVocab, vocabFromKeys_keys]

theorem sortDesc_keys_nodup {cnts : List (Token × Nat)} (h : (vocabKeys cnts).Nodup) :
    ((sortDesc cnts).map Prod.fst).Nodup := by
  have hp : List.Perm ((sortDesc cnts).map Prod.fst) (vocabKeys cnts) :=
    (sortDesc_perm cnts).map Prod.fst
  exact hp.nodup_iff.mpr h

theorem buildVocab_keys_nodup (cutoff : Option Nat) {cnts : List (Token × Nat)}
    (h : (vocabKeys cnts).Nodup) : (vocabKeys (buildVocab cutoff cnts)).Nodup := by
  cases cutoff with
  | none => rw [buildVocab_keys_none]; exact sortDesc_keys_nodup h
  | some k =>
    rw [buildVocab_keys_some]
    exact (List.take_sublist k _).nodup (sortDesc_keys_nodup h)

theorem buildVocab_indices (cutoff : Option Nat) (cnts : List (Token × Nat)) :
    (buildVocab cutoff cnts).map Prod.snd = List.range (buildVocab cutoff cnts).length := by
  cases cutoff <;> simp [buildVocab, vocabFromKeys_indices, vocabFromKeys_length]

theorem countOf_sortDesc_getElem {cnts : List (Token × Nat)}
    (hnd : (vocabKeys cnts).Nodup) (i : Nat) (hi : i < (sortDesc cnts).length) :
    countOf cnts ((sortDesc cnts)[i]).1 = ((sortDesc cnts)[i]).2 :=
  countOf_entry hnd ((sortDesc_perm cnts).mem_iff.mp (List.getElem_mem hi))

theorem sortDesc_filter_keys (cnts : List (Token × Nat))
    (hnd : (vocabKeys cnts).Nodup) (c : Nat) :
    ((sortDesc cnts).map Prod.fst).filter (fun t => countOf cnts t == c) =
      (vocabKeys cnts).filter (fun t => countOf cnts t == c) := by
  rw [vocabKeys, List.filter_map, List.filter_map]
  congr 1
  have h1 : List.filter ((fun t => countOf cnts t == c) ∘ Prod.fst) (sortDesc cnts) =
      List.filter (fun e => e.2 == c) (sortDesc cnts) := by
    refine List.filter_congr ?_
    intro e he
    simp [Function.comp, countOf_entry hnd ((sortDesc_perm cnts).mem_iff.mp he)]
  have h2 : List.filter ((fun t => countOf cnts t == c) ∘ Prod.fst) cnts =
      List.filter (fun e => e.2 == c) cnts := by
    refine List.filter_congr ?_
    intro e he
    simp [Function.comp, countOf_entry hnd he]
  rw [h1, h2, sortDesc_filter]

/-- A vocabulary `v` is frequency-ranked relative to the counting dict
`cnts`: entries appear with non-increasing counted frequency, and within any
one frequency class the retained keys form a prefix of the `cnts` key order,
i.e. ties keep first-seen order. -/
def FreqOrdered (cnts v : List (Token × Nat)) : Prop :=
  (∀ (i j : Nat) (hi : i < v.length) (hj : j < v.length), i < j →
      countOf cnts (v[j]).1 ≤ countOf cnts (v[i]).1) ∧
  (∀ c : Nat, ∃ u, (vocabKeys v).filter (fun t => countOf cnts t == c) ++ u =
      (vocabKeys cnts).filter (fun t => countOf cnts t == c))

theorem freqOrdered_take (cnts : List (Token × Nat)) (hnd : (vocabKeys cnts).Nodup)
    (k : Nat) : FreqOrdered cnts (vocabFromKeys (((sortDesc cnts).map Prod.fst).take k)) := by
  constructor
  · intro i j hi hj hij
    have hlen : (vocabFromKeys (((sortDesc cnts).map Prod.fst).take k)).length =
        (((sortDesc cnts).map Prod.fst).take k).length := vocabFromKeys_length _
    have hi2 : i < (((sortDesc cnts).map Prod.fst).take k).length := hlen ▸ hi
    have hj2 : j < (((sortDesc cnts).map Prod.fst).take k).length := hlen ▸ hj
    rw [vocabFromKeys_getElem _ i hi hi2, vocabFromKeys_getElem _ j hj hj2]
    have hi3 : i < (sortDesc cnts).length := by
      have := hi2
      simp [List.length_take] at this
      omega
    have hj3 : j < (sortDesc cnts).length := by
      have := hj2
      simp [List.length_take] at this
      omega
    simp only [List.getElem_take, List.getElem_map]
    rw [countOf_sortDesc_getElem hnd i hi3, countOf_sortDesc_getElem hnd j hj3]
    exact List.pairwise_iff_getElem.mp (sortDesc_pairwise cnts) i j hi3 hj3 hij
  · intro c
    refine ⟨(((sortDesc cnts).map Prod.fst).drop k).filter
      (fun t => countOf cnts t == c), ?_⟩
    rw [vocabFromKeys_keys, ← List.filter_append, List.take_append_drop]
    exact sortDesc_filter_keys cnts hnd c

theorem freqOrdered_buildVocab (cutoff : Option Nat) (cnts : List (Token × Nat))
    (hnd : (vocabKeys cnts).Nodup) : FreqOrdered cnts (buildVocab cutoff cnts) := by
  cases cutoff with
  | some k => exact freqOrdered_take cnts hnd k
  | none =>
    have : buildVocab none cnts =
        vocabFromKeys (((sortDesc cnts).map Prod.fst).take ((sortDesc cnts).map Prod.fst).length) := by
      rw [List.take_length]
      rfl
    rw [this]
    exact freqOrdered_take cnts hnd _

/-- C6: for every corpus and every cutoff value (`none` or a natural
number), both mappings returned by `get_token_to_index` have no duplicate
keys, and their index values are exactly the contiguous range
`0 .. size - 1`, with no gaps and no repeats. -/
theorem c6_dense_indices (ps : List SentencePair) (freq_cutoff : Option Nat) :
    (vocabKeys (get_token_to_index ps freq_cutoff).1).Nodup ∧
    (get_token_to_index ps freq_cutoff).1.map Prod.snd =
      List.range (get_token_to_index ps freq_cutoff).1.length ∧
    (vocabKeys (get_token_to_index ps freq_cutoff).2).Nodup ∧
    (get_token_to_index ps freq_cutoff).2.map Prod.snd =
      List.range (get_token_to_index ps freq_cutoff).2.length :=
  ⟨buildVocab_keys_nodup _ (sourceCounts_keys_nodup ps), buildVocab_indices _ _,
    buildVocab_keys_nodup _ (targetCounts_keys_nodup ps), buildVocab_indices _ _⟩

/-- C10: `get_token_to_index` with `freq_cutoff = 0` raises no error and
returns two empty mappings — `0 is not None` holds in Python, so the slice
`[:0]` keeps zero tokens on both sides. -/
theorem c10_zero_cutoff_empty (ps : List SentencePair) :
    get_token_to_index ps (some 0) = ([], []) := by
  simp [get_token_to_index, buildVocab, vocabFromKeys, enumTokens]

/-- C3: for every corpus and cutoff, each returned vocabulary lists its
tokens in order of non-increasing counted frequency, with ties kept in the
counting dict's key order; the counting dict's keys are exactly the tokens
in the order first seen during the left-to-right corpus scan; and the token
at index 0 has frequency at least that of every other retained token. -/
theorem c3_frequency_ranked (ps : List SentencePair) (freq_cutoff : Option Nat) :
    FreqOrdered (sourceCounts ps) (get_token_to_index ps freq_cutoff).1 ∧
    FreqOrdered (targetCounts ps) (get_token_to_index ps freq_cutoff).2 ∧
    (∀ (j : Nat) (h0 : 0 < (get_token_to_index ps freq_cutoff).1.length)
        (hj : j < (get_token_to_index ps freq_cutoff).1.length),
        countOf (sourceCounts ps) (((get_token_to_index ps freq_cutoff).1)[j]).1 ≤
          countOf (sourceCounts ps) (((get_token_to_index ps freq_cutoff).1)[0]).1) ∧
    (∀ (j : Nat) (h0 : 0 < (get_token_to_index ps freq_cutoff).2.length)
        (hj : j < (get_token_to_index ps freq_cutoff).2.length),
        countOf (targetCounts ps) (((get_token_to_index ps freq_cutoff).2)[j]).1 ≤
          countOf (targetCounts ps) (((get_token_to_index ps freq_cutoff).2)[0]).1) ∧
    vocabKeys (sourceCounts ps) = firstSeenAux [] ((ps.map SentencePair.source).flatten) ∧
    vocabKeys (targetCounts ps) = firstSeenAux [] ((ps.map SentencePair.target).flatten) := by
  have hs := freqOrdered_buildVocab freq_cutoff (sourceCounts ps) (sourceCounts_keys_nodup ps)
  have ht := freqOrdered_buildVocab freq_cutoff (targetCounts ps) (targetCounts_keys_nodup ps)
  refine ⟨hs, ht, ?_, ?_, sourceCounts_keys ps, targetCounts_keys ps⟩
  · intro j h0 hj
    cases j with
    | zero => exact le_refl _
    | succ j => exact hs.1 0 (j + 1) h0 hj (Nat.succ_pos j)
  · intro j h0 hj
    cases j with
    | zero => exact le_refl _
    | succ j => exact ht.1 0 (j + 1) h0 hj (Nat.succ_pos j)

/-- Witness for C3 at a concrete corpus: with source tokens
`a, b, b`, the vocabulary entry at index 1 (token `a`, frequency 1) has
frequency at most that of the entry at index 0 (token `b`, frequency 2). -/
theorem c3_frequency_ranked_witness :
    countOf (sourceCounts [⟨[['a'], ['b'], ['b']], [['x'], ['y']]⟩])
        (((get_token_to_index [⟨[['a'], ['b'], ['b']], [['x'], ['y']]⟩] none).1).get
          ⟨1, by decide⟩).1 ≤
      countOf (sourceCounts [⟨[['a'], ['b'], ['b']], [['x'], ['y']]⟩])
        (((get_token_to_index [⟨[['a'], ['b'], ['b']], [['x'], ['y']]⟩] none).1).get
          ⟨0, by decide⟩).1 := by
  have h := (c3_frequency_ranked [⟨[['a'], ['b'], ['b']], [['x'], ['y']]⟩] none).2.2.1 1
    (by decide) (by decide)
  simpa using h

/-! ### Cutoff lemmas -/

theorem pairwise_take_drop {α : Type} {R : α → α → Prop} {l : List α}
    (h : l.Pairwise R) (k : Nat) : ∀ a ∈ l.take k, ∀ b ∈ l.drop k, R a b := by
  have h2 : (l.take k ++ l.drop k).Pairwise R := by
    rw [List.take_append_drop]; exact h
  exact fun a ha b hb => (List.pairwise_append.mp h2).2.2 a ha b hb

/-- The behaviour of one side of `get_token_to_index` under a cutoff `k`:
the vocabulary size is `min k` (number of distinct tokens), its keys are the
first `k` keys of the stable descending sort, tokens beyond the cutoff are
not mapped at all, and every retained token's frequency is at least that of
every excluded token. -/
def cutoffSound (cnts v : List (Token × Nat)) (k : Nat) : Prop :=
  v.length = min k cnts.length ∧
  vocabKeys v = ((sortDesc cnts).map Prod.fst).take k ∧
  (∀ t, t ∉ vocabKeys v → dictLookup v t = none) ∧
  (∀ t ∈ vocabKeys v, ∀ u ∈ vocabKeys cnts, u ∉ vocabKeys v →
      countOf cnts u ≤ countOf cnts t)

theorem cutoffSound_buildVocab (k : Nat) (cnts : List (Token × Nat))
    (hnd : (vocabKeys cnts).Nodup) : cutoffSound cnts (buildVocab (some k) cnts) k := by
  refine ⟨?_, buildVocab_keys_some k cnts, ?_, ?_⟩
  · have h1 : (buildVocab (some k) cnts).length =
        (((sortDesc cnts).map Prod.fst).take k).length := by
      simp [buildVocab, vocabFromKeys_length]
    rw [h1, List.length_take, List.length_map, (sortDesc_perm cnts).length_eq]
  · intro t ht
    exact (dictLookup_eq_none_iff _ t).mpr ht
  · intro t ht u hu hunot
    rw [buildVocab_keys_some] at ht hunot
    have hu2 : u ∈ (sortDesc cnts).map Prod.fst :=
      ((sortDesc_perm cnts).map Prod.fst).mem_iff.mpr hu
    have hu3 : u ∈ ((sortDesc cnts).map Prod.fst).drop k := by
      have hsplit := List.take_append_drop k ((sortDesc cnts).map Prod.fst)
      rw [← hsplit] at hu2
      rcases List.mem_append.mp hu2 with h | h
      · exact absurd h hunot
      · exact h
    rw [← List.map_take] at ht
    rw [← List.map_drop] at hu3
    rcases List.mem_map.mp ht with ⟨et, het, rfl⟩
    rcases List.mem_map.mp hu3 with ⟨eu, heu, rfl⟩
    have hrel := pairwise_take_drop (sortDesc_pairwise cnts) k et het eu heu
    have h1 : countOf cnts et.1 = et.2 :=
      countOf_entry hnd ((sortDesc_perm cnts).mem_iff.mp ((List.take_sublist k _).subset het))
    have h2 : countOf cnts eu.1 = eu.2 :=
      countOf_entry hnd ((sortDesc_perm cnts).mem_iff.mp ((List.drop_sublist k _).subset heu))
    rw [h1, h2]
    exact hrel

theorem mem_buildVocab_none (cnts : List (Token × Nat)) (t : Token) :
    t ∈ vocabKeys (buildVocab none cnts) ↔ t ∈ vocabKeys cnts := by
  rw [buildVocab_keys_none]
  exact ((sortDesc_perm cnts).map Prod.fst).mem_iff

/-- C4: under a positive cutoff `k`, each vocabulary has size
`min k (distinct token count)`, consists of the first `k` tokens of the
stable descending frequency order (so every kept token is at least as
frequent as every dropped one), and maps no token beyond the cutoff; the
counting dicts' keys are exactly the distinct tokens of each side; with
`freq_cutoff = None` every distinct token is kept. -/
theorem c4_cutoff_size (ps : List SentencePair) (k : Nat) (hk : 0 < k) :
    cutoffSound (sourceCounts ps) (get_token_to_index ps (some k)).1 k ∧
    cutoffSound (targetCounts ps) (get_token_to_index ps (some k)).2 k ∧
    (vocabKeys (sourceCounts ps)).Nodup ∧
    (∀ t, t ∈ vocabKeys (sourceCounts ps) ↔ ∃ p ∈ ps, t ∈ p.source) ∧
    (vocabKeys (targetCounts ps)).Nodup ∧
    (∀ t, t ∈ vocabKeys (targetCounts ps) ↔ ∃ p ∈ ps, t ∈ p.target) ∧
    (∀ t, t ∈ vocabKeys (get_token_to_index ps none).1 ↔ t ∈ vocabKeys (sourceCounts ps)) ∧
    (∀ t, t ∈ vocabKeys (get_token_to_index ps none).2 ↔ t ∈ vocabKeys (targetCounts ps)) :=
  ⟨cutoffSound_buildVocab k (sourceCounts ps) (sourceCounts_keys_nodup ps),
    cutoffSound_buildVocab k (targetCounts ps) (targetCounts_keys_nodup ps),
    sourceCounts_keys_nodup ps, mem_sourceCounts_keys ps,
    targetCounts_keys_nodup ps, mem_targetCounts_keys ps,
    mem_buildVocab_none (sourceCounts ps), mem_buildVocab_none (targetCounts ps)⟩

/-- Witness for C4 at a concrete corpus and cutoff `k = 1`: with source
tokens `a, b, b` (two distinct tokens) the source vocabulary keeps exactly
one token. -/
theorem c4_cutoff_size_witness :
    (0 : Nat) < 1 ∧
    cutoffSound (sourceCounts [⟨[['a'], ['b'], ['b']], [['x'], ['y']]⟩])
      (get_token_to_index [⟨[['a'], ['b'], ['b']], [['x'], ['y']]⟩] (some 1)).1 1 :=
  ⟨by decide, (c4_cutoff_size [⟨[['a'], ['b'], ['b']], [['x'], ['y']]⟩] 1 (by decide)).1⟩

/-! ### Tokenizer lemmas -/

theorem takeWhile_append_of_all {α : Type} (p : α → Bool) {l1 : List α} (l2 : List α)
    (h : ∀ x ∈ l1, p x = true) : (l1 ++ l2).takeWhile p = l1 ++ l2.takeWhile p := by
  induction l1 with
  | nil => simp
  | cons a l ih =>
    have ha := h a (List.mem_cons_self a l)
    simp [List.takeWhile_cons, ha, ih (fun x hx => h x (List.mem_cons_of_mem a hx))]

theorem takeWhile_append_of_miss {α : Type} (p : α → Bool) {l1 : List α} (l2 : List α)
    (h : ∃ x ∈ l1, p x = false) : (l1 ++ l2).takeWhile p = l1.takeWhile p := by
  induction l1 with
  | nil => simp at h
  | cons a l ih =>
    by_cases ha : p a = true
    · rcases h with ⟨x, hx, hpx⟩
      rcases List.mem_cons.mp hx with rfl | hx2
      · rw [ha] at hpx; cases hpx
      · simp [List.takeWhile_cons, ha, ih ⟨x, hx2, hpx⟩]
    · have ha2 : p a = false := by revert ha; cases p a <;> simp
      simp [List.takeWhile_cons, ha2]

theorem takeWhile_of_all {α : Type} (p : α → Bool) {l : List α}
    (h : ∀ x ∈ l, p x = true) : l.takeWhile p = l := by
  have := takeWhile_append_of_all p [] h
  simpa using this

theorem specSuffix_of_all {d : List (Token × Nat)} {toks : List Token}
    (h : ∀ t ∈ toks, (dictLookup d t).isSome = true) :
    specSuffixAfterLastOOV d toks = toks := by
  rw [specSuffixAfterLastOOV, takeWhile_of_all _ (fun x hx => h x (List.mem_reverse.mp hx))]
  exact List.reverse_reverse toks

theorem specSuffix_cons_of_miss {d : List (Token × Nat)} (t : Token) {ts : List Token}
    (h : ∃ x ∈ ts, dictLookup d x = none) :
    specSuffixAfterLastOOV d (t :: ts) = specSuffixAfterLastOOV d ts := by
  rcases h with ⟨x, hx, hnone⟩
  rw [specSuffixAfterLastOOV, specSuffixAfterLastOOV, List.reverse_cons,
    takeWhile_append_of_miss _ [t] ⟨x, List.mem_reverse.mpr hx, by simp [hnone]⟩]

theorem specSuffix_miss_head_all_tail {d : List (Token × Nat)} {t : Token} {ts : List Token}
    (hmiss : dictLookup d t = none) (hall : ∀ x ∈ ts, (dictLookup d x).isSome = true) :
    specSuffixAfterLastOOV d (t :: ts) = ts := by
  rw [specSuffixAfterLastOOV, List.reverse_cons,
    takeWhile_append_of_all _ [t] (fun x hx => hall x (List.mem_reverse.mp hx))]
  simp [List.takeWhile_cons, hmiss]

theorem tokenizeSideAux_of_all {d : List (Token × Nat)} {toks : List Token}
    (h : ∀ t ∈ toks, (dictLookup d t).isSome = true) (acc : List Nat) :
    tokenizeSideAux d acc toks = acc ++ toks.filterMap (dictLookup d) := by
  induction toks generalizing acc with
  | nil => simp [tokenizeSideAux]
  | cons t ts ih =>
    have ht := h t (List.mem_cons_self t ts)
    rcases hlook : dictLookup d t with _ | i
    · rw [hlook] at ht; cases ht
    · rw [tokenizeSideAux, hlook]
      show tokenizeSideAux d (acc ++ [i]) ts = acc ++ List.filterMap (dictLookup d) (t :: ts)
      rw [ih (fun x hx => h x (List.mem_cons_of_mem t hx)) (acc ++ [i])]
      simp [List.filterMap_cons, hlook]

theorem tokenizeSideAux_of_miss {d : List (Token × Nat)} {toks : List Token}
    (h : ∃ t ∈ toks, dictLookup d t = none) (acc : List Nat) :
    tokenizeSideAux d acc toks =
      (specSuffixAfterLastOOV d toks).filterMap (dictLookup d) := by
  induction toks generalizing acc with
  | nil => simp at h
  | cons t ts ih =>
    by_cases hts : ∃ x ∈ ts, dictLookup d x = none
    · rw [specSuffix_cons_of_miss t hts]
      rcases hlook : dictLookup d t with _ | i
      · rw [tokenizeSideAux, hlook]
        exact ih hts []
      · rw [tokenizeSideAux, hlook]
        exact ih hts (acc ++ [i])
    · have hall : ∀ x ∈ ts, (dictLookup d x).isSome = true := by
        intro x hx
        rcases hx2 : dictLookup d x with _ | i
        · exact absurd ⟨x, hx, hx2⟩ hts
        · rfl
      have hmiss : dictLookup d t = none := by
        rcases h with ⟨x, hx, hnone⟩
        rcases List.mem_cons.mp hx with rfl | hx2
        · exact hnone
        · have := hall x hx2
          rw [hnone] at this
          cases this
      rw [specSuffix_miss_head_all_tail hmiss hall, tokenizeSideAux, hmiss]
      exact tokenizeSideAux_of_all hall []

theorem tokenizeSide_spec (d : List (Token × Nat)) (toks : List Token) :
    tokenizeSide d toks = (specSuffixAfterLastOOV d toks).filterMap (dictLookup d) := by
  by_cases h : ∀ t ∈ toks, (dictLookup d t).isSome = true
  · rw [tokenizeSide, tokenizeSideAux_of_all h [], specSuffix_of_all h]
    simp
  · push_neg at h
    rcases h with ⟨t, ht, hns⟩
    have hnone : dictLookup d t = none := by
      rcases h2 : dictLookup d t with _ | i
      · rfl
      · rw [h2] at hns; simp at hns
    exact tokenizeSideAux_of_miss ⟨t, ht, hnone⟩ []

theorem tokenize_sents_eq (ps : List SentencePair) (sd td : List (Token × Nat)) :
    tokenize_sents ps sd td =
      (ps.filter (fun p => !(tokenizeSide td p.target).isEmpty &&
          !(tokenizeSide sd p.source).isEmpty)).map
        (fun p => ⟨tokenizeSide sd p.source, tokenizeSide td p.target⟩) := by
  induction ps with
  | nil => simp [tokenize_sents]
  | cons p rest ih =>
    by_cases hc : tokenizeSide td p.target ≠ [] ∧ tokenizeSide sd p.source ≠ []
    · have hb : (!(tokenizeSide td p.target).isEmpty &&
          !(tokenizeSide sd p.source).isEmpty) = true := by
        simp [List.isEmpty_iff, hc.1, hc.2]
      rw [tokenize_sents, if_pos hc, List.filter_cons, hb, ih]
      simp
    · have hb : (!(tokenizeSide td p.target).isEmpty &&
          !(tokenizeSide sd p.source).isEmpty) = false := by
        rcases not_and_or.mp hc with h | h <;>
          simp [List.isEmpty_iff, not_not.mp h]
      rw [tokenize_sents, if_neg hc, List.filter_cons, hb, ih]
      simp

/-- C1: the per-side index list computed by `tokenize_sents` is
reset-on-miss: it equals the index-mapped suffix of tokens strictly
following the last out-of-vocabulary token (the full index-mapped sequence
when every token is known); in particular with source vocabulary
`a ↦ 0, c ↦ 1` and sentence `a b c` the source index list is `[1]`. -/
theorem c1_reset_on_miss :
    (∀ (d : List (Token × Nat)) (toks : List Token),
        tokenizeSide d toks = (specSuffixAfterLastOOV d toks).filterMap (dictLookup d)) ∧
    (∀ (ps : List SentencePair) (sd td : List (Token × Nat)) (r : TokenizedSentencePair),
        r ∈ tokenize_sents ps sd td → ∃ p, p ∈ ps ∧
          r.source_tokens = (specSuffixAfterLastOOV sd p.source).filterMap (dictLookup sd) ∧
          r.target_tokens = (specSuffixAfterLastOOV td p.target).filterMap (dictLookup td)) ∧
    tokenizeSide [(['a'], 0), (['c'], 1)] [['a'], ['b'], ['c']] = [1] := by
  refine ⟨tokenizeSide_spec, ?_, by decide⟩
  intro ps sd td r hr
  rw [tokenize_sents_eq] at hr
  rcases List.mem_map.mp hr with ⟨p, hp, rfl⟩
  exact ⟨p, (List.mem_filter.mp hp).1, (tokenizeSide_spec sd p.source).symm ▸ rfl,
    (tokenizeSide_spec td p.target).symm ▸ rfl⟩

/-- Witness for C1 at a concrete corpus: tokenizing the single pair with
source `a b c` (vocabulary `a ↦ 0, c ↦ 1`) and target `x` (vocabulary
`x ↦ 0`) yields the record `([1], [0])`, and that record's sides are the
index-mapped suffixes after the last out-of-vocabulary token. -/
theorem c1_reset_on_miss_witness :
    (⟨[1], [0]⟩ : TokenizedSentencePair) ∈
      tokenize_sents [⟨[['a'], ['b'], ['c']], [['x']]⟩]
        [(['a'], 0), (['c'], 1)] [(['x'], 0)] ∧
    (∃ p, p ∈ [(⟨[['a'], ['b'], ['c']], [['x']]⟩ : SentencePair)] ∧
      (⟨[1], [0]⟩ : TokenizedSentencePair).source_tokens =
        (specSuffixAfterLastOOV [(['a'], 0), (['c'], 1)] p.source).filterMap
          (dictLookup [(['a'], 0), (['c'], 1)]) ∧
      (⟨[1], [0]⟩ : TokenizedSentencePair).target_tokens =
        (specSuffixAfterLastOOV [(['x'], 0)] p.target).filterMap
          (dictLookup [(['x'], 0)])) :=
  ⟨by decide, c1_reset_on_miss.2.1 [⟨[['a'], ['b'], ['c']], [['x']]⟩]
    [(['a'], 0), (['c'], 1)] [(['x'], 0)] ⟨[1], [0]⟩ (by decide)⟩

/-- C5: a sentence pair contributes an output record exactly when both its
computed index lists are nonempty — `tokenize_sents` equals the map of the
per-side tokenization over the filter keeping exactly those pairs (hence
relative order is preserved), the output is never longer than the input,
and no output record has an empty side. -/
theorem c5_drop_empty (ps : List SentencePair) (sd td : List (Token × Nat)) :
    tokenize_sents ps sd td =
      (ps.filter (fun p => !(tokenizeSide td p.target).isEmpty &&
          !(tokenizeSide sd p.source).isEmpty)).map
        (fun p => ⟨tokenizeSide sd p.source, tokenizeSide td p.target⟩) ∧
    (tokenize_sents ps sd td).length ≤ ps.length ∧
    (∀ r ∈ tokenize_sents ps sd td, r.source_tokens ≠ [] ∧ r.target_tokens ≠ []) := by
  refine ⟨tokenize_sents_eq ps sd td, ?_, ?_⟩
  · rw [tokenize_sents_eq, List.length_map]
    exact List.length_filter_le _ ps
  · intro r hr
    rw [tokenize_sents_eq] at hr
    rcases List.mem_map.mp hr with ⟨p, hp, rfl⟩
    have hq := (List.mem_filter.mp hp).2
    simp only [Bool.and_eq_true, Bool.not_eq_true', List.isEmpty_eq_false] at hq
    exact ⟨hq.2, hq.1⟩

/-- Witness for C5 at a concrete corpus: of two input pairs, the pair whose
source token is out of vocabulary is dropped, the surviving record is
`([0], [0])`, and both its sides are nonempty. -/
theorem c5_drop_empty_witness :
    tokenize_sents [⟨[['a']], [['x']]⟩, ⟨[['q']], [['x']]⟩] [(['a'], 0)] [(['x'], 0)] =
      [⟨[0], [0]⟩] ∧
    (⟨[0], [0]⟩ : TokenizedSentencePair).source_tokens ≠ [] ∧
    (⟨[0], [0]⟩ : TokenizedSentencePair).target_tokens ≠ [] :=
  ⟨by decide, (c5_drop_empty [⟨[['a']], [['x']]⟩, ⟨[['q']], [['x']]⟩]
    [(['a'], 0)] [(['x'], 0)]).2.2 ⟨[0], [0]⟩ (by decide)⟩

/-! ### Extraction lemmas -/

theorem except_bind_ok {α β : Type} (a : α) (f : α → Except PyErr β) :
    Except.bind (Except.ok a) f = f a := rfl

theorem except_bind_error {α β : Type} (e : PyErr) (f : α → Except PyErr β) :
    Except.bind (Except.error e : Except PyErr α) f = Except.error e := rfl

theorem getItem?_eq_ok {child : List XElement} {i : Nat} {e : XElement} :
    getItem? child i = Except.ok e ↔ child[i]? = some e := by
  rw [getItem?]
  cases h : child[i]? <;> simp [liftOpt]

theorem textSplit_eq_ok {e : XElement} {s : List (List Char)} :
    textSplit e = Except.ok s ↔ ∃ s0, e.text = some s0 ∧ s = pySplitWs s0 := by
  rw [textSplit]
  cases h : e.text <;> simp [eq_comm]

theorem extract_ok_spec {root : List (List XElement)} {ps : List SentencePair}
    {als : List LabeledAlignment} (h : extract_sentences root = Except.ok (ps, als)) :
    ps.length = root.length ∧ als.length = root.length ∧
    ∀ (i : Nat) (hi : i < root.length), ∃ pa,
      processChild root[i] = Except.ok pa ∧ ps[i]? = some pa.1 ∧ als[i]? = some pa.2 := by
  induction root generalizing ps als with
  | nil =>
    rw [extract_sentences] at h
    simp only [Except.ok.injEq, Prod.mk.injEq] at h
    obtain ⟨h1, h2⟩ := h
    subst h1; subst h2
    exact ⟨rfl, rfl, fun i hi => absurd hi (by simp)⟩
  | cons child rest ih =>
    rw [extract_sentences] at h
    cases hpc : processChild child with
    | error e => rw [hpc] at h; simp at h
    | ok pa =>
      rw [hpc] at h
      cases hex : extract_sentences rest with
      | error e => rw [hex] at h; simp at h
      | ok pr =>
        obtain ⟨ps', als'⟩ := pr
        rw [hex] at h
        simp only [Except.ok.injEq, Prod.mk.injEq] at h
        obtain ⟨h1, h2⟩ := h
        subst h1; subst h2
        obtain ⟨l1, l2, hidx⟩ := ih hex
        refine ⟨by simp [l1], by simp [l2], ?_⟩
        intro i hi
        cases i with
        | zero => exact ⟨pa, by simpa using hpc, by simp, by simp⟩
        | succ i =>
          have hi2 : i < rest.length := by simpa using hi
          obtain ⟨pa2, hp2, hg1, hg2⟩ := hidx i hi2
          exact ⟨pa2, by simpa using hp2, by simpa using hg1, by simpa using hg2⟩

/-- C2: whenever extraction succeeds, the two returned lists have the same
length (one entry per child of the document root), and for every index `i`
the `i`-th `SentencePair` and the `i`-th `LabeledAlignment` are the two
components produced from the `i`-th child element, in document order. -/
theorem c2_index_aligned (root : List (List XElement)) (ps : List SentencePair)
    (als : List LabeledAlignment) (h : extract_sentences root = Except.ok (ps, als)) :
    ps.length = root.length ∧ als.length = root.length ∧
    ∀ (i : Nat) (hi : i < root.length), ∃ pa,
      processChild root[i] = Except.ok pa ∧ ps[i]? = some pa.1 ∧ als[i]? = some pa.2 :=
  extract_ok_spec h

/-- Witness for C2 at a concrete two-child document: extraction succeeds,
both result lists have length 2, and the record at index 0 comes from the
first child. -/
theorem c2_index_aligned_witness :
    extract_sentences
        [[⟨some ['a']⟩, ⟨some ['x']⟩, ⟨some ['1', '-', '1']⟩, ⟨none⟩],
          [⟨some ['b']⟩, ⟨some ['y']⟩, ⟨none⟩, ⟨some ['2', '-', '1']⟩]] =
      Except.ok ([⟨[['a']], [['x']]⟩, ⟨[['b']], [['y']]⟩],
        [⟨[((1 : Int), (1 : Int))], []⟩, ⟨[], [((2 : Int), (1 : Int))]⟩]) ∧
    ([(⟨[['a']], [['x']]⟩ : SentencePair), ⟨[['b']], [['y']]⟩]).length =
      ([[(⟨some ['a']⟩ : XElement), ⟨some ['x']⟩, ⟨some ['1', '-', '1']⟩, ⟨none⟩],
        [⟨some ['b']⟩, ⟨some ['y']⟩, ⟨none⟩, ⟨some ['2', '-', '1']⟩]]).length ∧
    ([(⟨[((1 : Int), (1 : Int))], []⟩ : LabeledAlignment),
        ⟨[], [((2 : Int), (1 : Int))]⟩]).length =
      ([[(⟨some ['a']⟩ : XElement), ⟨some ['x']⟩, ⟨some ['1', '-', '1']⟩, ⟨none⟩],
        [⟨some ['b']⟩, ⟨some ['y']⟩, ⟨none⟩, ⟨some ['2', '-', '1']⟩]]).length := by
  have h : extract_sentences
      [[⟨some ['a']⟩, ⟨some ['x']⟩, ⟨some ['1', '-', '1']⟩, ⟨none⟩],
        [⟨some ['b']⟩, ⟨some ['y']⟩, ⟨none⟩, ⟨some ['2', '-', '1']⟩]] =
      Except.ok ([⟨[['a']], [['x']]⟩, ⟨[['b']], [['y']]⟩],
        [⟨[((1 : Int), (1 : Int))], []⟩, ⟨[], [((2 : Int), (1 : Int))]⟩]) := rfl
  have h2 := c2_index_aligned _ _ _ h
  exact ⟨h, h2.1, h2.2.1⟩

theorem splitWsAux_nil_of_all_ws {s : List Char} (h : ∀ c ∈ s, c.isWhitespace = true) :
    splitWsAux [] s = [] := by
  induction s with
  | nil => rfl
  | cons c cs ih =>
    have hc := h c (List.mem_cons_self c cs)
    simp [splitWsAux, hc, ih (fun x hx => h x (List.mem_cons_of_mem c hx))]

theorem processChild_ok_elim {child : List XElement} {pa : SentencePair × LabeledAlignment}
    (h : processChild child = Except.ok pa) :
    ∃ e0 e1 e2 e3 s0 s1,
      child[0]? = some e0 ∧ child[1]? = some e1 ∧ child[2]? = some e2 ∧ child[3]? = some e3 ∧
      e0.text = some s0 ∧ e1.text = some s1 ∧
      pa.1.source = pySplitWs s0 ∧ pa.1.target = pySplitWs s1 ∧
      parseAlignList e2.text = Except.ok pa.2.sure ∧
      parseAlignList e3.text = Except.ok pa.2.possible := by
  rw [processChild] at h
  rcases h0 : getItem? child 0 with e | e0
  · rw [h0] at h; simp only [except_bind_error] at h; exact absurd h (by simp)
  rw [h0] at h; simp only [except_bind_ok] at h
  rcases hs0 : textSplit e0 with e | src
  · rw [hs0] at h; simp only [except_bind_error] at h; exact absurd h (by simp)
  rw [hs0] at h; simp only [except_bind_ok] at h
  rcases h1 : getItem? child 1 with e | e1
  · rw [h1] at h; simp only [except_bind_error] at h; exact absurd h (by simp)
  rw [h1] at h; simp only [except_bind_ok] at h
  rcases hs1 : textSplit e1 with e | tgt
  · rw [hs1] at h; simp only [except_bind_error] at h; exact absurd h (by simp)
  rw [hs1] at h; simp only [except_bind_ok] at h
  rcases h2 : getItem? child 2 with e | e2
  · rw [h2] at h; simp only [except_bind_error] at h; exact absurd h (by simp)
  rw [h2] at h; simp only [except_bind_ok] at h
  rcases hp2 : parseAlignList e2.text with e | sure
  · rw [hp2] at h; simp only [except_bind_error] at h; exact absurd h (by simp)
  rw [hp2] at h; simp only [except_bind_ok] at h
  rcases h3 : getItem? child 3 with e | e3
  · rw [h3] at h; simp only [except_bind_error] at h; exact absurd h (by simp)
  rw [h3] at h; simp only [except_bind_ok] at h
  rcases hp3 : parseAlignList e3.text with e | possible
  · rw [hp3] at h; simp only [except_bind_error] at h; exact absurd h (by simp)
  rw [hp3] at h; simp only [except_bind_ok] at h
  obtain ⟨s0, ht0, hsrc⟩ := textSplit_eq_ok.mp hs0
  obtain ⟨s1, ht1, htgt⟩ := textSplit_eq_ok.mp hs1
  have hpa : pa = (⟨src, tgt⟩, ⟨sure, possible⟩) := by
    simpa [eq_comm] using h
  subst hpa
  exact ⟨e0, e1, e2, e3, s0, s1, getItem?_eq_ok.mp h0, getItem?_eq_ok.mp h1,
    getItem?_eq_ok.mp h2, getItem?_eq_ok.mp h3, ht0, ht1, hsrc, htgt, hp2, hp3⟩

theorem processChild_error_none0 {child : List XElement}
    (h : child[0]? = some ⟨none⟩) :
    processChild child = Except.error PyErr.attributeError := by
  rw [processChild, getItem?, h]
  rfl

theorem processChild_error_none1 {child : List XElement}
    (h : child[1]? = some ⟨none⟩) :
    ∃ e, processChild child = Except.error e := by
  rcases h0 : child[0]? with _ | e0
  · exact ⟨PyErr.indexError, by rw [processChild, getItem?, h0]; rfl⟩
  rcases h0t : e0.text with _ | s0
  · refine ⟨PyErr.attributeError, ?_⟩
    rw [processChild, getItem?, h0]
    simp only [liftOpt, except_bind_ok, textSplit, h0t, except_bind_error]
  · refine ⟨PyErr.attributeError, ?_⟩
    rw [processChild, getItem?, h0]
    simp only [liftOpt, except_bind_ok, textSplit, h0t, getItem?, h, except_bind_error]

/-- C7 as amended: for any child element, present text that is empty or
whitespace-only at position 0 (resp. 1) yields an empty source (resp.
target) token list whenever the child is processed successfully; but absent
(`None`) text at position 0 or 1 makes `extract_sentences`' per-child
processing fail with an exception (`.split()` on `None`) instead of
producing an empty list. -/
theorem c7_whitespace_handling (child : List XElement) :
    (∀ s pa, child[0]? = some ⟨some s⟩ → (∀ c ∈ s, c.isWhitespace = true) →
        processChild child = Except.ok pa → pa.1.source = []) ∧
    (∀ s pa, child[1]? = some ⟨some s⟩ → (∀ c ∈ s, c.isWhitespace = true) →
        processChild child = Except.ok pa → pa.1.target = []) ∧
    (child[0]? = some ⟨none⟩ → processChild child = Except.error PyErr.attributeError) ∧
    (child[1]? = some ⟨none⟩ → ∃ e, processChild child = Except.error e) := by
  refine ⟨?_, ?_, processChild_error_none0, processChild_error_none1⟩
  · intro s pa h0 hws hok
    obtain ⟨e0, e1, e2, e3, s0, s1, g0, g1, g2, g3, t0, t1, q0, q1, a2, a3⟩ :=
      processChild_ok_elim hok
    have he0 : (⟨some s⟩ : XElement) = e0 := Option.some_inj.mp (h0.symm.trans g0)
    rw [← he0] at t0
    have hs0 : s0 = s := by simpa [eq_comm] using t0
    rw [q0, hs0]
    exact splitWsAux_nil_of_all_ws hws
  · intro s pa h1 hws hok
    obtain ⟨e0, e1, e2, e3, s0, s1, g0, g1, g2, g3, t0, t1, q0, q1, a2, a3⟩ :=
      processChild_ok_elim hok
    have he1 : (⟨some s⟩ : XElement) = e1 := Option.some_inj.mp (h1.symm.trans g1)
    rw [← he1] at t1
    have hs1 : s1 = s := by simpa [eq_comm] using t1
    rw [q1, hs1]
    exact splitWsAux_nil_of_all_ws hws

/-- Counterexample to C7 as stated: a child whose position-0 text is absent
(`None`, e.g. an empty element) makes extraction fail with an
`AttributeError` instead of producing an empty source token list. -/
theorem c7_whitespace_handling_counterexample :
    extract_sentences [[⟨none⟩, ⟨some ['x']⟩, ⟨none⟩, ⟨none⟩]] =
      Except.error PyErr.attributeError := rfl

/-- Witness for the amended C7 at a concrete child: whitespace-only source
text produces an empty source token list in the successfully processed
record. -/
theorem c7_whitespace_handling_witness :
    ([(⟨some [' ']⟩ : XElement), ⟨some ['x']⟩, ⟨none⟩, ⟨none⟩])[0]? =
      some ⟨some [' ']⟩ ∧
    (∀ c ∈ [' '], Char.isWhitespace c = true) ∧
    processChild [⟨some [' ']⟩, ⟨some ['x']⟩, ⟨none⟩, ⟨none⟩] =
      Except.ok (⟨[], [['x']]⟩, ⟨[], []⟩) ∧
    ((⟨[], [['x']]⟩ : SentencePair), (⟨[], []⟩ : LabeledAlignment)).1.source = [] :=
  ⟨rfl, by decide,   rfl,
    (c7_whitespace_handling [⟨some [' ']⟩, ⟨some ['x']⟩, ⟨none⟩, ⟨none⟩]).1 [' ']
      (⟨[], [['x']]⟩, ⟨[], []⟩) rfl (by decide) rfl⟩

/-! ### Alignment-position lemmas -/

theorem pySplitOn_sep_not_mem (sep : Char) (cs : List Char) :
    ∀ part ∈ pySplitOn sep cs, sep ∉ part := by
  induction cs with
  | nil =>
    intro part hp
    rw [pySplitOn] at hp
    simp at hp
    subst hp
    simp
  | cons c rest ih =>
    intro part hp
    by_cases hc : c = sep
    · rw [pySplitOn, if_pos hc] at hp
      rcases List.mem_cons.mp hp with rfl | hp2
      · simp
      · exact ih part hp2
    · rw [pySplitOn, if_neg hc] at hp
      rcases hrec : pySplitOn sep rest with _ | ⟨g, gs⟩
      · rw [hrec] at hp
        simp at hp
        subst hp
        simp
        exact fun he => hc he.symm
      · rw [hrec] at hp
        simp only [] at hp
        rcases List.mem_cons.mp hp with rfl | hp2
        · intro hmem
          rcases List.mem_cons.mp hmem with he | hg
          · exact hc he.symm
          · exact ih g (hrec ▸ List.mem_cons_self g gs) hg
        · exact ih part (hrec ▸ List.mem_cons_of_mem g hp2)

theorem pyInt?_nonneg {cs : List Char} (hno : '-' ∉ cs) {n : Int}
    (hp : pyInt? cs = some n) : 0 ≤ n := by
  cases cs with
  | nil => simp [pyInt?] at hp
  | cons c rest =>
    have hc : ¬ (c = '-') := fun he => hno (he ▸ List.mem_cons_self c rest)
    rw [pyInt?, if_neg hc] at hp
    by_cases hplus : c = '+'
    · rw [if_pos hplus] at hp
      rcases hparse : parseNat? rest with _ | m
      · rw [hparse] at hp; simp at hp
      · rw [hparse] at hp
        simp at hp
        omega
    · rw [if_neg hplus] at hp
      rcases hparse : parseNat? (c :: rest) with _ | m
      · rw [hparse] at hp; simp at hp
      · rw [hparse] at hp
        simp at hp
        omega

theorem parseAlignTok_nonneg {s : List Char} {pr : Int × Int}
    (h : parseAlignTok s = Except.ok pr) : 0 ≤ pr.1 ∧ 0 ≤ pr.2 := by
  rw [parseAlignTok] at h
  rcases h0 : (pySplitOn '-' s)[0]? with _ | p0
  · rw [h0] at h; simp only [liftOpt, except_bind_error] at h; exact absurd h (by simp)
  rw [h0] at h; simp only [liftOpt, except_bind_ok] at h
  rcases hi0 : pyInt? p0 with _ | a
  · rw [hi0] at h; simp only [liftOpt, except_bind_error] at h; exact absurd h (by simp)
  rw [hi0] at h; simp only [liftOpt, except_bind_ok] at h
  rcases h1 : (pySplitOn '-' s)[1]? with _ | p1
  · rw [h1] at h; simp only [liftOpt, except_bind_error] at h; exact absurd h (by simp)
  rw [h1] at h; simp only [liftOpt, except_bind_ok] at h
  rcases hi1 : pyInt? p1 with _ | b
  · rw [hi1] at h; simp only [liftOpt, except_bind_error] at h; exact absurd h (by simp)
  rw [hi1] at h; simp only [liftOpt, except_bind_ok] at h
  have hpr : pr = (a, b) := by simpa [eq_comm] using h
  subst hpr
  have hm0 : p0 ∈ pySplitOn '-' s := List.getElem?_mem h0
  have hm1 : p1 ∈ pySplitOn '-' s := List.getElem?_mem h1
  exact ⟨pyInt?_nonneg (pySplitOn_sep_not_mem '-' s p0 hm0) hi0,
    pyInt?_nonneg (pySplitOn_sep_not_mem '-' s p1 hm1) hi1⟩

theorem parseAlignToks_nonneg {l : List (List Char)} {prs : List (Int × Int)}
    (h : parseAlignToks l = Except.ok prs) : ∀ pr ∈ prs, 0 ≤ pr.1 ∧ 0 ≤ pr.2 := by
  induction l generalizing prs with
  | nil =>
    rw [parseAlignToks] at h
    simp only [Except.ok.injEq] at h
    subst h
    simp
  | cons s rest ih =>
    rw [parseAlignToks] at h
    rcases hs : parseAlignTok s with e | pr0
    · rw [hs] at h; simp at h
    rw [hs] at h
    rcases hr : parseAlignToks rest with e | prs'
    · rw [hr] at h; simp at h
    rw [hr] at h
    simp only [Except.ok.injEq] at h
    subst h
    intro pr hpr
    rcases List.mem_cons.mp hpr with rfl | hpr2
    · exact parseAlignTok_nonneg hs
    · exact ih hr pr hpr2

theorem parseAlignList_nonneg {t : Option (List Char)} {prs : List (Int × Int)}
    (h : parseAlignList t = Except.ok prs) : ∀ pr ∈ prs, 0 ≤ pr.1 ∧ 0 ≤ pr.2 := by
  cases t with
  | none =>
    rw [parseAlignList] at h
    simp only [Except.ok.injEq] at h
    subst h
    simp
  | some s => exact parseAlignToks_nonneg h

/-- C9 as amended: alignment pairs are stored verbatim, and because the
separator of an `a-b` token is the minus character itself, each successfully
parsed component is a bare digit string, so both stored positions are
always ≥ 0 — but they are not guaranteed to be ≥ 1 (the counterexample
parses the pair `0-3`). -/
theorem c9_alignment_positions (root : List (List XElement)) (ps : List SentencePair)
    (als : List LabeledAlignment) (h : extract_sentences root = Except.ok (ps, als)) :
    ∀ al ∈ als, (∀ pr ∈ al.sure, 0 ≤ pr.1 ∧ 0 ≤ pr.2) ∧
      (∀ pr ∈ al.possible, 0 ≤ pr.1 ∧ 0 ≤ pr.2) := by
  intro al hal
  obtain ⟨_, hlen, hidx⟩ := extract_ok_spec h
  obtain ⟨i, hi, hget⟩ := List.getElem_of_mem hal
  have hi2 : i < root.length := by rw [← hlen]; exact hi
  obtain ⟨pa, hpc, hg1, hg2⟩ := hidx i hi2
  have hsome : als[i]? = some al := by rw [List.getElem?_eq_getElem hi, hget]
  have hpa2 : pa.2 = al := Option.some_inj.mp (hg2.symm.trans hsome)
  obtain ⟨e0, e1, e2, e3, s0, s1, g0, g1, g2, g3, t0, t1, q0, q1, a2, a3⟩ :=
    processChild_ok_elim hpc
  rw [← hpa2]
  exact ⟨parseAlignList_nonneg a2, parseAlignList_nonneg a3⟩

/-- Counterexample to C9 as stated: the document whose sure-alignment text
is `0-3` parses successfully and stores the pair `(0, 3)`, whose source
position is not ≥ 1. -/
theorem c9_alignment_positions_counterexample :
    extract_sentences [[⟨some ['a']⟩, ⟨some ['b']⟩, ⟨some ['0', '-', '3']⟩, ⟨none⟩]] =
      Except.ok ([⟨[['a']], [['b']]⟩], [⟨[((0 : Int), (3 : Int))], []⟩]) ∧
    ¬ (1 ≤ (0 : Int)) :=
  ⟨rfl, by decide⟩

/-- Witness for the amended C9 at a concrete document: the sure pair
`(2, 3)` extracted from `2-3` has both components ≥ 0. -/
theorem c9_alignment_positions_witness :
    extract_sentences [[⟨some ['a']⟩, ⟨some ['b']⟩, ⟨some ['2', '-', '3']⟩, ⟨none⟩]] =
      Except.ok ([⟨[['a']], [['b']]⟩], [⟨[((2 : Int), (3 : Int))], []⟩]) ∧
    0 ≤ ((2 : Int), (3 : Int)).1 ∧ 0 ≤ ((2 : Int), (3 : Int)).2 := by
  have h : extract_sentences [[⟨some ['a']⟩, ⟨some ['b']⟩, ⟨some ['2', '-', '3']⟩, ⟨none⟩]] =
      Except.ok ([⟨[['a']], [['b']]⟩], [⟨[((2 : Int), (3 : Int))], []⟩]) := rfl
  have h2 := c9_alignment_positions _ _ _ h ⟨[((2 : Int), (3 : Int))], []⟩ (by decide)
  exact ⟨h, h2.1 ((2 : Int), (3 : Int)) (by decide)⟩

/-! ### Ampersand-escaping lemmas -/

theorem escapeAmp_append (s t : List Char) :
    escapeAmp (s ++ t) = escapeAmp s ++ escapeAmp t := by
  induction s with
  | nil => simp [escapeAmp]
  | cons c cs ih =>
    by_cases hc : c = '&' <;> simp [escapeAmp, hc, ih]

theorem decodeAmp_cons_ne {c : Char} (hc : ¬ c = '&') (rest : List Char) :
    decodeAmp (c :: rest) = (decodeAmp rest).map (fun t => c :: t) := by
  rw [decodeAmp.eq_def]
  simp [hc]

theorem decodeAmp_escapeAmp (s : List Char) : decodeAmp (escapeAmp s) = some s := by
  induction s with
  | nil => rfl
  | cons c cs ih =>
    by_cases hc : c = '&'
    · subst hc
      have h1 : escapeAmp ('&' :: cs) = '&' :: 'a' :: 'm' :: 'p' :: ';' :: escapeAmp cs := by
        rw [escapeAmp, if_pos rfl]
      have h2 : decodeAmp ('&' :: 'a' :: 'm' :: 'p' :: ';' :: escapeAmp cs) =
          (decodeAmp (escapeAmp cs)).map (fun t => '&' :: t) := rfl
      rw [h1, h2, ih]
      rfl
    · have h1 : escapeAmp (c :: cs) = c :: escapeAmp cs := by rw [escapeAmp, if_neg hc]
      rw [h1, decodeAmp_cons_ne hc, ih]
      rfl

/-- C8: the ampersand escaping of `extract_sentences` is an unconditional
character-level substitution — it distributes over concatenation, turns
every single `&` into `&amp;` and leaves every other character unchanged
regardless of context.  Consequently any text, with bare ampersands or not,
parses successfully after escaping and reproduces the original characters
(so a file whose only markup flaw is a bare `&` is parsed); but a text that
already contains the valid entity `&amp;` is escaped to `&amp;amp;`, which
the parser renders as the double-escaped value `&amp;` instead of `&`. -/
theorem c8_unconditional_escape :
    (∀ s t : List Char, escapeAmp (s ++ t) = escapeAmp s ++ escapeAmp t) ∧
    escapeAmp ['&'] = ['&', 'a', 'm', 'p', ';'] ∧
    (∀ c : Char, c ≠ '&' → escapeAmp [c] = [c]) ∧
    (∀ s : List Char, decodeAmp (escapeAmp s) = some s) ∧
    decodeAmp ['&'] = none ∧
    escapeAmp ['&', 'a', 'm', 'p', ';'] = ['&', 'a', 'm', 'p', ';', 'a', 'm', 'p', ';'] ∧
    decodeAmp ['&', 'a', 'm', 'p', ';', 'a', 'm', 'p', ';'] = some ['&', 'a', 'm', 'p', ';'] ∧
    decodeAmp ['&', 'a', 'm', 'p', ';'] = some ['&'] := by
  refine ⟨escapeAmp_append, by decide, ?_, decodeAmp_escapeAmp, by decide, by decide,
    by decide, by decide⟩
  intro c hc
  simp [escapeAmp, hc]

/-- Witness for C8 at a concrete character: `x` is not an ampersand and is
left unchanged by the escaping. -/
theorem c8_unconditional_escape_witness :
    ('x' ≠ '&') ∧ escapeAmp ['x'] = ['x'] :=
  ⟨by decide, c8_unconditional_escape.2.2.1 'x' (by decide)⟩

end Align
